import Mathlib

/-!
Shallow embedding of `src/classes/GraphSelectionMapper.ts` (typeorm-graph-select).

JavaScript strings are modelled as lists of characters (`Str`); the
`UniqueRelationMap` object is modelled as an association list in key insertion
order (its keys are dotted identifier paths, which JS objects keep in insertion
order); the TypeORM `SelectQueryBuilder` collaborator is modelled as a record
logging the `leftJoinAndSelect` and `select` calls it receives.  The alias
token generator `UniqueIdGenerator.makeId(5)` (its source file is not part of
the repository snapshot) is modelled as an arbitrary stream `gen : Nat → Str`
of tokens: the n-th call of one compilation run returns `gen n`.  JS
`String.prototype.replace` is modelled as literal first-occurrence
substitution (`replaceOnce`); the `$`-escape forms a replacement string can
carry in JS do not arise, the substituted tokens being alphanumeric.
-/

abbrev Str := List Char

/-- Convenience: the character list of a literal. -/
def strL (s : String) : Str := s.data

/-- JS `s.indexOf(pat) !== -1`: `pat` occurs contiguously inside `s`. -/
def strHas (pat s : Str) : Bool := decide (pat <:+: s)

/-- JS `s.indexOf('.') !== -1`. -/
def hasDot (s : Str) : Bool := s.contains '.'

/-- JS `s.substr(0, s.lastIndexOf('.'))`, used on strings that contain a dot:
everything strictly before the last `'.'`. -/
def beforeLastDot (s : Str) : Str :=
  ((s.reverse.dropWhile (fun c => c ≠ '.')).drop 1).reverse

/-- Everything strictly after the last `'.'` of `s`. -/
def afterLastDot (s : Str) : Str :=
  (s.reverse.takeWhile (fun c => c ≠ '.')).reverse

/-- `pat` begins `s`. -/
def leadsWith : Str → Str → Bool
  | [], _ => true
  | _ :: _, [] => false
  | a :: pat, b :: s => a == b && leadsWith pat s

/-- JS `s.replace(pat, rep)` with a string pattern: only the first (leftmost)
occurrence of `pat` is replaced; `s` is returned unchanged when `pat` does not
occur.  (JS `''.replace('', r) = r`, matching the base case.) -/
def replaceOnce (pat rep : Str) : Str → Str
  | [] => if pat.isEmpty then rep else []
  | c :: s =>
    if leadsWith pat (c :: s) then rep ++ (c :: s).drop pat.length
    else c :: replaceOnce pat rep s

/-- The inner-loop test of `sanitizeFieldMap`: a slot of the working array
still holds a string that contains `field` (`delete`d slots are holes, which
`forEach` skips). -/
def optHas (field : Str) : Option Str → Bool
  | some other => strHas field other
  | none => false

/-- The nested `forEach` loops of `sanitizeFieldMap`.  The outer loop walks
the working array left to right; `done` is the already-visited prefix (with
holes where `delete map[key]` fired) and the second argument the unvisited
suffix.  Only the slot currently visited is ever deleted, so when slot `key`
is visited it still holds its original value, and the inner `forEach` over
`otherKey ≠ key` sees exactly the non-hole slots of `done ++ rest`. -/
def sanitizeScan : List (Option Str) → List (Option Str) → List (Option Str)
  | done, [] => done
  | done, none :: rest => sanitizeScan (done ++ [none]) rest
  | done, some field :: rest =>
    if (done ++ rest).any (optHas field) then sanitizeScan (done ++ [none]) rest
    else sanitizeScan (done ++ [some field]) rest

/-- `GraphSelectionMapper.sanitizeFieldMap`: copy the argument
(`let map = [...fieldMap]`), run the nested `forEach`/`delete` loops, and
return `map.filter(field => field != null)` (which also drops the holes). -/
def sanitizeFieldMap (fieldMap : List Str) : List Str :=
  (sanitizeScan [] (fieldMap.map some)).filterMap id

/-- `GraphSelectionMapper.getRelationMap`: for every entry containing a dot,
push the part before its last dot unless already present. -/
def getRelationMap (fieldMap : List Str) : List Str :=
  (fieldMap.filter (fun field => hasDot field)).foldl
    (fun map field =>
      let relation := beforeLastDot field
      if relation ∈ map then map else map ++ [relation])
    []

/-- One value of the `UniqueRelationMap` interface. -/
structure RelationBinding where
  uniqueAlias : Str
  targetRelation : Str
  aliasedTargetRelation : Str
deriving DecidableEq

/-- The `UniqueRelationMap` object: keys with their bindings, insertion order. -/
abbrev Urm := List (Str × RelationBinding)

/-- JS `urm[key] = value`: overwrite in place when the key exists, append
otherwise. -/
def jsObjSet (urm : Urm) (k : Str) (v : RelationBinding) : Urm :=
  if urm.any (fun kv => kv.1 = k) then
    urm.map (fun kv => if kv.1 = k then (k, v) else kv)
  else urm ++ [(k, v)]

/-- The local helper `getAliasedTargetRelation` of `getUniqueRelationMap`:
root relations are returned unchanged; otherwise every key of the map built so
far is compared with the parent prefix, a match substituting its alias, and
the empty accumulator falls back to the unchanged relation. -/
def getAliasedTargetRelation (urm : Urm) (targetRelation : Str) : Str :=
  if hasDot targetRelation = false then targetRelation
  else
    let pre := beforeLastDot targetRelation
    let targetRel := urm.foldl
      (fun targetRel kv =>
        if kv.1 = pre then replaceOnce pre kv.2.uniqueAlias targetRelation
        else targetRel)
      []
    if targetRel = [] then targetRelation else targetRel

/-- `GraphSelectionMapper.getUniqueRelationMap`: fold over the relation map,
resolving each relation against the bindings built so far and drawing the next
token from the generator stream (`UniqueIdGenerator.makeId(5)` per iteration). -/
def getUniqueRelationMap (gen : Nat → Str) (fieldMap : List Str) : Urm :=
  let relationMap := getRelationMap fieldMap
  (relationMap.foldl
    (fun (st : Urm × Nat) targetRelation =>
      let aliasedTargetRelation := getAliasedTargetRelation st.1 targetRelation
      let uniqueAlias := gen st.2
      (jsObjSet st.1 targetRelation
        ⟨uniqueAlias, targetRelation, aliasedTargetRelation⟩, st.2 + 1))
    ([], 0)).1

/-- The `SelectQueryBuilder` collaborator, reduced to what the mapper calls:
its root alias (`query.alias`, called `rootAlias` here since `alias` is a
Lean keyword), and logs of the join and select calls it has received. -/
structure QueryState where
  rootAlias : Str
  joins : List (Str × Str)
  selects : List (List Str)
deriving DecidableEq

/-- `query.leftJoinAndSelect(target, alias)`. -/
def leftJoinAndSelect (q : QueryState) (target bindingAlias : Str) : QueryState :=
  { q with joins := q.joins ++ [(target, bindingAlias)] }

/-- `query.select(selection)`. -/
def selectCall (q : QueryState) (selection : List Str) : QueryState :=
  { q with selects := q.selects ++ [selection] }

/-- `GraphSelectionMapper.joinRelationsToQuery`: one `leftJoinAndSelect` per
key of the map, in map order.  A dot-free key joins `query.alias +
targetRelation` (plain concatenation, as in the source); a dotted key joins
its `aliasedTargetRelation`. -/
def joinRelationsToQuery (urm : Urm) (q : QueryState) : QueryState :=
  urm.foldl
    (fun q kv =>
      if hasDot kv.1 = false then
        leftJoinAndSelect q (q.rootAlias ++ kv.2.targetRelation) kv.2.uniqueAlias
      else leftJoinAndSelect q kv.2.aliasedTargetRelation kv.2.uniqueAlias)
    q

/-- `GraphSelectionMapper.assignSelectionToQuery`: rewrite each path — every
map key occurring inside the *original* path overwrites `uf` with the original
path after first-occurrence replacement of that key by its alias, so the last
matching key wins — prefix dot-free results with `query.alias + '.'`, and hand
the list to `query.select`. -/
def assignSelectionToQuery (fieldMap : List Str) (urm : Urm) (q : QueryState) :
    QueryState :=
  let selection := fieldMap.map (fun field =>
    let uf := urm.foldl
      (fun uf kv =>
        if strHas kv.1 field then replaceOnce kv.1 kv.2.uniqueAlias field
        else uf)
      field
    if hasDot uf = false then q.rootAlias ++ '.' :: uf else uf)
  selectCall q selection

/-- `GraphSelectionMapper.mapGraph`: sanitize, build the unique relation map,
join the relations, assign the selection, return the map.  (The
`connection.getMetadata(entity)` lookup and the `console.log` calls touch
neither the planning state nor the query; the metadata is only consumed by the
commented-out wildcard block.) -/
def mapGraph (gen : Nat → Str) (fieldMap : List Str) (q : QueryState) :
    Urm × QueryState :=
  let effectiveFieldMap := sanitizeFieldMap fieldMap
  let urm := getUniqueRelationMap gen effectiveFieldMap
  let q1 := joinRelationsToQuery urm q
  let q2 := assignSelectionToQuery effectiveFieldMap urm q1
  (urm, q2)

/-! ### Basic facts about the string helpers -/

theorem strHas_iff {pat s : Str} : strHas pat s = true ↔ pat <:+: s :=
  decide_eq_true_iff

theorem leadsWith_iff {pat s : Str} : leadsWith pat s = true ↔ ∃ t, s = pat ++ t := by
  induction pat generalizing s with
  | nil => simp [leadsWith]
  | cons a pat ih =>
    cases s with
    | nil => simp [leadsWith]
    | cons b s =>
      simp only [leadsWith, Bool.and_eq_true, beq_iff_eq, ih, List.cons_append,
        List.cons.injEq]
      constructor
      · rintro ⟨rfl, t, rfl⟩; exact ⟨t, rfl, rfl⟩
      · rintro ⟨t, rfl, rfl⟩; exact ⟨rfl, t, rfl⟩

theorem leadsWith_append (pat t : Str) : leadsWith pat (pat ++ t) = true :=
  leadsWith_iff.2 ⟨t, rfl⟩

theorem replaceOnce_append (pat rep t : Str) :
    replaceOnce pat rep (pat ++ t) = rep ++ t := by
  cases pat with
  | nil =>
    cases t with
    | nil => simp [replaceOnce]
    | cons c s => simp [replaceOnce, leadsWith]
  | cons a pat =>
    show replaceOnce (a :: pat) rep (a :: (pat ++ t)) = rep ++ t
    have hl : leadsWith (a :: pat) (a :: (pat ++ t)) = true :=
      leadsWith_append (a :: pat) t
    simp only [replaceOnce, hl, if_true, List.length_cons, List.drop_succ_cons]
    rw [List.drop_left]

theorem afterLastDot_no_dot (s : Str) : hasDot (afterLastDot s) = false := by
  have h : ∀ c ∈ afterLastDot s, c ≠ '.' := by
    intro c hc
    have hc' : c ∈ s.reverse.takeWhile (fun c => c ≠ '.') := by
      simpa [afterLastDot] using hc
    have := List.mem_takeWhile_imp hc'
    simpa using this
  have : '.' ∉ afterLastDot s := fun hmem => h '.' hmem rfl
  simpa [hasDot] using this

theorem dropWhile_dot_shape {l : Str}
    (h : l.dropWhile (fun c => c ≠ '.') ≠ []) :
    ∃ d, l.dropWhile (fun c => c ≠ '.') = '.' :: d := by
  induction l with
  | nil => exact absurd rfl h
  | cons a l ih =>
    by_cases ha : a = '.'
    · subst ha
      exact ⟨l, by simp⟩
    · rw [List.dropWhile_cons_of_pos (by simpa using ha)] at h ⊢
      exact ih h

theorem splitLastDot {s : Str} (h : hasDot s = true) :
    s = beforeLastDot s ++ '.' :: afterLastDot s := by
  have hmem : '.' ∈ s := by simpa [hasDot] using h
  have hmemr : '.' ∈ s.reverse := by simpa using hmem
  have hne : s.reverse.dropWhile (fun c => c ≠ '.') ≠ [] := by
    intro hnil
    rw [List.dropWhile_eq_nil_iff] at hnil
    exact (by simpa using hnil '.' hmemr : ('.' : Char) ≠ '.') rfl
  obtain ⟨d, hd⟩ := dropWhile_dot_shape hne
  have hsplit : s.reverse.takeWhile (fun c => c ≠ '.') ++ ('.' :: d) = s.reverse := by
    rw [← hd, List.takeWhile_append_dropWhile]
  have hs : s = (s.reverse.takeWhile (fun c => c ≠ '.') ++ ('.' :: d)).reverse := by
    rw [hsplit, List.reverse_reverse]
  rw [beforeLastDot, afterLastDot, hd]
  conv_lhs => rw [hs]
  simp

/-! ### The sanitize loop, hole-free view -/

/-- `sanitizeScan` with the holes dropped: `done` holds the surviving earlier
entries, the second argument the not-yet-visited entries, and the visited
entry is kept exactly when no other currently present entry contains it. -/
def sanitizeGo : List Str → List Str → List Str
  | done, [] => done
  | done, field :: rest =>
    if (done ++ rest).any (fun other => strHas field other) then sanitizeGo done rest
    else sanitizeGo (done ++ [field]) rest

theorem any_optHas (opts : List (Option Str)) (f : Str) :
    opts.any (optHas f) = (opts.filterMap id).any (fun other => strHas f other) := by
  induction opts with
  | nil => rfl
  | cons o opts ih =>
    cases o with
    | none => simpa [optHas] using ih
    | some v => simp [optHas, ih]

theorem sanitizeScan_go (rest : List Str) : ∀ done : List (Option Str),
    (sanitizeScan done (rest.map some)).filterMap id =
      sanitizeGo (done.filterMap id) rest := by
  induction rest with
  | nil => intro done; rfl
  | cons f rest ih =>
    intro done
    show (sanitizeScan done (some f :: rest.map some)).filterMap id = _
    rw [sanitizeScan]
    have hc : (done ++ rest.map some).any (optHas f) =
        (done.filterMap id ++ rest).any (fun other => strHas f other) := by
      rw [any_optHas]
      simp
    rw [sanitizeGo, ← hc]
    by_cases h : (done ++ rest.map some).any (optHas f) = true
    · rw [if_pos h, if_pos h, ih]
      simp
    · rw [if_neg h, if_neg h, ih]
      simp

theorem sanitizeFieldMap_eq_go (l : List Str) : sanitizeFieldMap l = sanitizeGo [] l := by
  have := sanitizeScan_go l []
  simpa [sanitizeFieldMap] using this

theorem sanitizeGo_shape (rest : List Str) : ∀ done : List Str,
    ∃ t, sanitizeGo done rest = done ++ t ∧ t.Sublist rest := by
  induction rest with
  | nil => intro done; exact ⟨[], by simp [sanitizeGo]⟩
  | cons f rest ih =>
    intro done
    rw [sanitizeGo]
    by_cases h : (done ++ rest).any (fun other => strHas f other) = true
    · rw [if_pos h]
      obtain ⟨t, ht, hs⟩ := ih done
      exact ⟨t, ht, hs.cons f⟩
    · rw [if_neg h]
      obtain ⟨t, ht, hs⟩ := ih (done ++ [f])
      exact ⟨f :: t, by simpa using ht, hs.cons₂ f⟩

/-- The relation every surviving pair of the sanitize output satisfies:
neither contains the other. -/
def NoMutual (a b : Str) : Prop := strHas a b = false ∧ strHas b a = false

theorem noMutual_symm : Symmetric NoMutual := fun _ _ h => ⟨h.2, h.1⟩

theorem strHas_self (a : Str) : strHas a a = true :=
  strHas_iff.2 ⟨[], [], by simp⟩

theorem strHas_trans {a b c : Str} (h1 : strHas a b = true) (h2 : strHas b c = true) :
    strHas a c = true :=
  strHas_iff.2 ((strHas_iff.1 h1).trans (strHas_iff.1 h2))

theorem strHas_antisymm {a b : Str} (h1 : strHas a b = true) (h2 : strHas b a = true) :
    a = b :=
  (strHas_iff.1 h1).eq_of_length
    (Nat.le_antisymm (strHas_iff.1 h1).length_le (strHas_iff.1 h2).length_le)

theorem strHas_length_le {a b : Str} (h : strHas a b = true) : a.length ≤ b.length :=
  (strHas_iff.1 h).length_le

theorem sanitizeGo_pairwise (rest : List Str) : ∀ done : List Str,
    done.Pairwise NoMutual →
    (∀ d ∈ done, ∀ o ∈ rest, strHas d o = false) →
    (sanitizeGo done rest).Pairwise NoMutual := by
  induction rest with
  | nil => intro done hpw _; exact hpw
  | cons f rest ih =>
    intro done hpw hinv
    rw [sanitizeGo]
    by_cases h : (done ++ rest).any (fun other => strHas f other) = true
    · rw [if_pos h]
      exact ih done hpw (fun d hd o ho => hinv d hd o (List.mem_cons_of_mem f ho))
    · rw [if_neg h]
      have hno : ∀ o ∈ done ++ rest, strHas f o = false := by
        intro o ho
        by_contra hx
        exact h (List.any_eq_true.2 ⟨o, ho, by simpa using hx⟩)
      refine ih (done ++ [f]) ?_ ?_
      · rw [List.pairwise_append]
        refine ⟨hpw, by simp, ?_⟩
        intro a ha b hb
        rw [List.mem_singleton] at hb
        rw [hb]
        exact ⟨hinv a ha f (List.mem_cons_self f rest),
          hno a (List.mem_append_left _ ha)⟩
      · intro d hd o ho
        rcases List.mem_append.1 hd with hd | hd
        · exact hinv d hd o (List.mem_cons_of_mem f ho)
        · rw [List.mem_singleton] at hd
          subst hd
          exact hno o (List.mem_append_right _ ho)

theorem sanitizeGo_mem_of_max (rest : List Str) : ∀ done : List Str, ∀ w : Str,
    w ∈ rest →
    (∀ o ∈ done ++ rest, strHas w o = true → o = w) →
    (∀ d ∈ done, d ≠ w) →
    w ∈ sanitizeGo done rest := by
  induction rest with
  | nil => intro done w hw _ _; exact absurd hw (List.not_mem_nil w)
  | cons f rest ih =>
    intro done w hw hmax hdone
    have hmax' : ∀ o ∈ done ++ rest, strHas w o = true → o = w := by
      intro x hx
      refine hmax x ?_
      rcases List.mem_append.1 hx with hx | hx
      · exact List.mem_append_left _ hx
      · exact List.mem_append_right _ (List.mem_cons_of_mem _ hx)
    rw [sanitizeGo]
    by_cases h : (done ++ rest).any (fun other => strHas f other) = true
    · rw [if_pos h]
      have hwrest : w ∈ rest := by
        rcases List.mem_cons.1 hw with hweq | hw'
        · obtain ⟨o, ho, hso⟩ := List.any_eq_true.1 h
          have hso' : strHas w o = true := by rw [hweq]; simpa using hso
          have ho' : o = w := hmax' o ho hso'
          rcases List.mem_append.1 ho with hoL | hoR
          · exact absurd ho' (hdone o hoL)
          · exact ho' ▸ hoR
        · exact hw'
      exact ih done w hwrest hmax' hdone
    · rw [if_neg h]
      rcases List.mem_cons.1 hw with hweq | hw'
      · obtain ⟨t, ht, _⟩ := sanitizeGo_shape rest (done ++ [f])
        rw [ht, hweq]
        exact List.mem_append_left _ (List.mem_append_right _ (List.mem_singleton_self f))
      · refine ih (done ++ [f]) w hw' ?_ ?_
        · intro x hx hsx
          refine hmax x ?_ hsx
          rcases List.mem_append.1 hx with hx | hx
          · rcases List.mem_append.1 hx with hx | hx
            · exact List.mem_append_left _ hx
            · rw [List.mem_singleton] at hx
              rw [hx]
              exact List.mem_append_right _ (List.mem_cons_self _ _)
          · exact List.mem_append_right _ (List.mem_cons_of_mem _ hx)
        · intro d hd
          rcases List.mem_append.1 hd with hd | hd
          · exact hdone d hd
          · rw [List.mem_singleton] at hd
            rw [hd]
            intro hfw
            apply h
            exact List.any_eq_true.2
              ⟨w, List.mem_append_right _ hw', by simpa [hfw] using strHas_self w⟩

theorem exists_max_length {l : List Str} (hne : l ≠ []) :
    ∃ w ∈ l, ∀ z ∈ l, z.length ≤ w.length := by
  induction l with
  | nil => exact absurd rfl hne
  | cons a l ih =>
    cases l with
    | nil => exact ⟨a, List.mem_singleton_self a, by simp⟩
    | cons b t =>
      obtain ⟨w, hw, hmax⟩ := ih (by simp)
      by_cases h : a.length ≤ w.length
      · refine ⟨w, List.mem_cons_of_mem a hw, ?_⟩
        intro z hz
        rcases List.mem_cons.1 hz with rfl | hz
        · exact h
        · exact hmax z hz
      · refine ⟨a, List.mem_cons_self a _, ?_⟩
        intro z hz
        rcases List.mem_cons.1 hz with rfl | hz
        · exact le_rfl
        · exact le_trans (hmax z hz) (le_of_not_le h)

/-- **C3.** `sanitizeFieldMap` returns a subsequence of its input, in input
order, with no duplicate elements; a path `p` contained as a literal substring
in some other, different path `q` of the list is dropped.  Exact duplicates
keep at most one surviving occurrence, which is the duplicate-free clause. -/
theorem C3_sanitizeFieldMap_subseq_nodup_drops (l : List Str) :
    (sanitizeFieldMap l).Sublist l ∧ (sanitizeFieldMap l).Nodup ∧
      ∀ p q, p ∈ l → q ∈ l → p ≠ q → strHas p q = true → p ∉ sanitizeFieldMap l := by
  have hgo := sanitizeFieldMap_eq_go l
  have hpw : (sanitizeFieldMap l).Pairwise NoMutual := by
    rw [hgo]
    exact sanitizeGo_pairwise l [] List.Pairwise.nil (by simp)
  refine ⟨?_, ?_, ?_⟩
  · rw [hgo]
    obtain ⟨t, ht, hs⟩ := sanitizeGo_shape l []
    rw [ht]
    simpa using hs
  · refine hpw.imp ?_
    intro a b hab he
    rw [he] at hab
    exact absurd (strHas_self b) (by simp [hab.1])
  · intro p q hp hq hne hhas hmem
    obtain ⟨w, hwcs, hwmax⟩ :=
      exists_max_length (l := l.filter (fun v => strHas p v && decide (v ≠ p)))
        (fun h0 => by
          have hqcs : q ∈ l.filter (fun v => strHas p v && decide (v ≠ p)) :=
            List.mem_filter.2 ⟨hq, by simp [hhas, Ne.symm hne]⟩
          rw [h0] at hqcs
          exact List.not_mem_nil q hqcs)
    obtain ⟨hwl, hwand⟩ := List.mem_filter.1 hwcs
    have hpw_has : strHas p w = true := by
      have := hwand
      simp only [Bool.and_eq_true, decide_eq_true_eq] at this
      exact this.1
    have hwp : w ≠ p := by
      have := hwand
      simp only [Bool.and_eq_true, decide_eq_true_eq] at this
      exact this.2
    have hwnostrict : ∀ o ∈ l, strHas w o = true → o = w := by
      intro o ho hso
      by_contra hneq
      have hpo : strHas p o = true := strHas_trans hpw_has hso
      have hop : o ≠ p := by
        intro heq
        rw [heq] at hso
        exact hwp (strHas_antisymm hso hpw_has)
      have hocs : o ∈ l.filter (fun v => strHas p v && decide (v ≠ p)) :=
        List.mem_filter.2 ⟨ho, by simp [hpo, hop]⟩
      have hlen := hwmax o hocs
      exact hneq ((strHas_iff.1 hso).eq_of_length
        (Nat.le_antisymm (strHas_length_le hso) hlen)).symm
    have hwmem : w ∈ sanitizeFieldMap l := by
      rw [hgo]
      exact sanitizeGo_mem_of_max l [] w hwl (by simpa using hwnostrict) (by simp)
    have hrel : NoMutual p w :=
      List.Pairwise.forall noMutual_symm hpw hmem hwmem (fun he => hwp he.symm)
    rw [hrel.1] at hpw_has
    exact Bool.false_ne_true hpw_has

/-- Concrete instance of C3 on the repository's own test input: `"store"` is
contained in `"store.name"` and is dropped. -/
theorem C3_witness_store :
    strL "store" ∈
        [strL "store", strL "store.name", strL "store.location.streetName",
          strL "store.id", strL "store.id", strL "store.location.city"] ∧
      strL "store" ∉ sanitizeFieldMap
        [strL "store", strL "store.name", strL "store.location.streetName",
          strL "store.id", strL "store.id", strL "store.location.city"] := by
  refine ⟨by decide, ?_⟩
  exact (C3_sanitizeFieldMap_subseq_nodup_drops
    [strL "store", strL "store.name", strL "store.location.streetName",
      strL "store.id", strL "store.id", strL "store.location.city"]).2.2
    (strL "store") (strL "store.name") (by decide) (by decide) (by decide) (by decide)

/-! ### The relation map -/

/-- The relation list as C6 words it: deduplicate, keeping first occurrences.
(Stated from the claim's words, to be compared with `getRelationMap`.) -/
def firstSeenDedup (l : List Str) : List Str :=
  l.foldl (fun acc r => if r ∈ acc then acc else acc ++ [r]) []

theorem dedup_foldl_nodup (l : List Str) : ∀ acc : List Str, acc.Nodup →
    (l.foldl (fun acc r => if r ∈ acc then acc else acc ++ [r]) acc).Nodup := by
  induction l with
  | nil => intro acc h; exact h
  | cons x l ih =>
    intro acc h
    by_cases hx : x ∈ acc
    · simpa [hx] using ih acc h
    · have : (acc ++ [x]).Nodup := by
        simp [List.nodup_append, h, hx]
      simpa [hx] using ih (acc ++ [x]) this

theorem getRelationMap_eq_dedup (f : List Str) :
    getRelationMap f =
      firstSeenDedup ((f.filter (fun p => hasDot p)).map (fun p => beforeLastDot p)) := by
  rw [firstSeenDedup, List.foldl_map]
  rfl

theorem getRelationMap_nodup (f : List Str) : (getRelationMap f).Nodup := by
  rw [getRelationMap_eq_dedup, firstSeenDedup]
  exact dedup_foldl_nodup _ [] List.nodup_nil

/-- **C6.** `getRelationMap` returns, deduplicated keeping first occurrences,
the text before the last dot of every dotted input path (dot-free paths
contribute nothing), and on the repository's test input it returns exactly
`["store", "store.location"]`. -/
theorem C6_getRelationMap_first_seen (f : List Str) :
    getRelationMap f =
        firstSeenDedup ((f.filter (fun p => hasDot p)).map (fun p => beforeLastDot p)) ∧
      (getRelationMap f).Nodup ∧
      getRelationMap [strL "store.name", strL "store.location.streetName",
          strL "store.id", strL "store.location.city"] =
        [strL "store", strL "store.location"] :=
  ⟨getRelationMap_eq_dedup f, getRelationMap_nodup f, by decide⟩

/-! ### The unique relation map, structured view -/

/-- The fold of `getUniqueRelationMap`, restated as structural recursion over
the relation list (valid because the relation list has no duplicate keys, so
the JS assignment always appends a fresh key). -/
def buildUrm (gen : Nat → Str) : Nat → List Str → Urm → Urm
  | _, [], acc => acc
  | n, r :: rest, acc =>
    buildUrm gen (n + 1) rest
      (acc ++ [(r, ⟨gen n, r, getAliasedTargetRelation acc r⟩)])

theorem jsObjSet_fresh {urm : Urm} {k : Str} (h : ∀ kv ∈ urm, kv.1 ≠ k)
    (v : RelationBinding) : jsObjSet urm k v = urm ++ [(k, v)] := by
  rw [jsObjSet, if_neg]
  simp only [List.any_eq_true, not_exists, not_and]
  intro kv hkv
  simpa using h kv hkv

theorem getUniqueRelationMap_eq_buildUrm (gen : Nat → Str) (f : List Str) :
    getUniqueRelationMap gen f = buildUrm gen 0 (getRelationMap f) [] := by
  rw [getUniqueRelationMap]
  have key : ∀ (rels : List Str) (acc : Urm) (n : Nat), rels.Nodup →
      (∀ r ∈ rels, ∀ kv ∈ acc, kv.1 ≠ r) →
      (rels.foldl
        (fun (st : Urm × Nat) targetRelation =>
          (jsObjSet st.1 targetRelation
            ⟨gen st.2, targetRelation,
              getAliasedTargetRelation st.1 targetRelation⟩, st.2 + 1))
        (acc, n)).1 = buildUrm gen n rels acc := by
    intro rels
    induction rels with
    | nil => intro acc n _ _; rfl
    | cons r rest ih =>
      intro acc n hnd hdisj
      rw [List.foldl_cons, buildUrm]
      have hset := jsObjSet_fresh (fun kv hkv => hdisj r (List.mem_cons_self r rest) kv hkv)
        (⟨gen n, r, getAliasedTargetRelation acc r⟩ : RelationBinding)
      rw [hset]
      refine ih _ (n + 1) (List.Nodup.of_cons hnd) ?_
      intro x hx kv hkv
      rcases List.mem_append.1 hkv with hkv | hkv
      · exact hdisj x (List.mem_cons_of_mem r hx) kv hkv
      · rw [List.mem_singleton] at hkv
        have h1 : kv.1 = r := by rw [hkv]
        rw [h1]
        intro he
        subst he
        exact (List.nodup_cons.1 hnd).1 hx
  exact key (getRelationMap f) [] 0 (getRelationMap_nodup f) (by simp)

theorem buildUrm_keys (gen : Nat → Str) (rels : List Str) :
    ∀ (n : Nat) (acc : Urm),
      (buildUrm gen n rels acc).map Prod.fst = acc.map Prod.fst ++ rels := by
  induction rels with
  | nil => intro n acc; simp [buildUrm]
  | cons r rest ih =>
    intro n acc
    rw [buildUrm, ih]
    simp

theorem buildUrm_length (gen : Nat → Str) (rels : List Str) (n : Nat) (acc : Urm) :
    (buildUrm gen n rels acc).length = acc.length + rels.length := by
  have := congrArg List.length (buildUrm_keys gen rels n acc)
  simpa using this

theorem buildUrm_append (gen : Nat → Str) (l1 l2 : List Str) :
    ∀ (n : Nat) (acc : Urm),
      buildUrm gen n (l1 ++ l2) acc = buildUrm gen (n + l1.length) l2 (buildUrm gen n l1 acc) := by
  induction l1 with
  | nil => intro n acc; simp [buildUrm]
  | cons r rest ih =>
    intro n acc
    have hn : n + 1 + rest.length = n + (r :: rest).length := by
      simp only [List.length_cons]
      omega
    rw [List.cons_append, buildUrm, ih, buildUrm, hn]

theorem buildUrm_shape (gen : Nat → Str) (rels : List Str) :
    ∀ (n : Nat) (acc : Urm), ∃ t, buildUrm gen n rels acc = acc ++ t := by
  induction rels with
  | nil => intro n acc; exact ⟨[], by simp [buildUrm]⟩
  | cons r rest ih =>
    intro n acc
    rw [buildUrm]
    obtain ⟨t, ht⟩ := ih (n + 1) (acc ++ [(r, ⟨gen n, r, getAliasedTargetRelation acc r⟩)])
    exact ⟨(r, ⟨gen n, r, getAliasedTargetRelation acc r⟩) :: t, by simpa using ht⟩

theorem buildUrm_aliases (gen : Nat → Str) (rels : List Str) :
    ∀ (n : Nat) (acc : Urm),
      (buildUrm gen n rels acc).map (fun kv => kv.2.uniqueAlias) =
        acc.map (fun kv => kv.2.uniqueAlias) ++ (List.range' n rels.length).map gen := by
  induction rels with
  | nil => intro n acc; simp [buildUrm]
  | cons r rest ih =>
    intro n acc
    rw [buildUrm, ih]
    simp only [List.length_cons, List.range'_succ]
    simp

/-! ### Characterizing the alias resolution -/

theorem gATR_no_dot {urm : Urm} {r : Str} (h : hasDot r = false) :
    getAliasedTargetRelation urm r = r := by
  rw [getAliasedTargetRelation, if_pos h]

theorem gATR_fold_no_match (pre r : Str) :
    ∀ (urm : Urm), (∀ kv ∈ urm, kv.1 ≠ pre) → ∀ start : Str,
      urm.foldl (fun targetRel kv =>
        if kv.1 = pre then replaceOnce pre kv.2.uniqueAlias r else targetRel) start =
      start := by
  intro urm
  induction urm with
  | nil => intro _ start; rfl
  | cons kv rest ih =>
    intro h start
    rw [List.foldl_cons, if_neg (h kv (List.mem_cons_self kv rest))]
    exact ih (fun kv' h' => h kv' (List.mem_cons_of_mem kv h')) start

theorem gATR_fold_match (pre r : Str) (pb : RelationBinding) :
    ∀ (urm : Urm), (urm.map Prod.fst).Nodup → (pre, pb) ∈ urm → ∀ start : Str,
      urm.foldl (fun targetRel kv =>
        if kv.1 = pre then replaceOnce pre kv.2.uniqueAlias r else targetRel) start =
      replaceOnce pre pb.uniqueAlias r := by
  intro urm
  induction urm with
  | nil => intro _ hmem; exact absurd hmem (List.not_mem_nil _)
  | cons kv rest ih =>
    intro hnd hmem start
    have hnd' : (kv.1 :: rest.map Prod.fst).Nodup := by
      rw [← List.map_cons]
      exact hnd
    rcases List.mem_cons.1 hmem with heq | hmem'
    · have hk : kv.1 = pre := by rw [← heq]
      have hb : kv.2 = pb := by rw [← heq]
      rw [List.foldl_cons, if_pos hk, hb]
      refine gATR_fold_no_match pre r rest ?_ _
      intro kv' h' he
      have hmm : kv.1 ∈ rest.map Prod.fst := by
        rw [hk, ← he]
        exact List.mem_map_of_mem Prod.fst h'
      exact (List.nodup_cons.1 hnd').1 hmm
    · have hk : kv.1 ≠ pre := by
        intro he
        have hmm : pre ∈ rest.map Prod.fst := List.mem_map_of_mem Prod.fst hmem'
        rw [← he] at hmm
        exact (List.nodup_cons.1 hnd').1 hmm
      rw [List.foldl_cons, if_neg hk]
      exact ih (List.nodup_cons.1 hnd').2 hmem' start

theorem gATR_missing {urm : Urm} {r : Str} (hd : hasDot r = true)
    (h : ∀ kv ∈ urm, kv.1 ≠ beforeLastDot r) :
    getAliasedTargetRelation urm r = r := by
  rw [getAliasedTargetRelation, if_neg (by simp [hd])]
  have hfold := gATR_fold_no_match (beforeLastDot r) r urm h []
  simp only [hfold]
  simp

theorem gATR_found {urm : Urm} {r : Str} {pb : RelationBinding}
    (hd : hasDot r = true) (hnd : (urm.map Prod.fst).Nodup)
    (hmem : (beforeLastDot r, pb) ∈ urm) :
    getAliasedTargetRelation urm r = pb.uniqueAlias ++ '.' :: afterLastDot r := by
  rw [getAliasedTargetRelation, if_neg (by simp [hd])]
  have hfold := gATR_fold_match (beforeLastDot r) r pb urm hnd hmem []
  have hrepl : replaceOnce (beforeLastDot r) pb.uniqueAlias r =
      pb.uniqueAlias ++ '.' :: afterLastDot r := by
    have h3 := replaceOnce_append (beforeLastDot r) pb.uniqueAlias ('.' :: afterLastDot r)
    rw [← splitLastDot hd] at h3
    exact h3
  simp only [hfold, hrepl]
  rw [if_neg (by simp)]

/-! ### Positional description of the unique relation map -/

theorem getUniqueRelationMap_length (gen : Nat → Str) (f : List Str) :
    (getUniqueRelationMap gen f).length = (getRelationMap f).length := by
  rw [getUniqueRelationMap_eq_buildUrm]
  simpa using buildUrm_length gen (getRelationMap f) 0 []

theorem getUniqueRelationMap_keys (gen : Nat → Str) (f : List Str) :
    (getUniqueRelationMap gen f).map Prod.fst = getRelationMap f := by
  rw [getUniqueRelationMap_eq_buildUrm]
  simpa using buildUrm_keys gen (getRelationMap f) 0 []

theorem get_congr_list {α : Type _} (l l' : List α) (hll : l = l') (i : Nat)
    (h : i < l.length) (h' : i < l'.length) : l.get ⟨i, h⟩ = l'.get ⟨i, h'⟩ := by
  subst hll
  rfl

theorem get_middle {α : Type _} (P : List α) (e : α) (t : List α)
    (h : P.length < (P ++ [e] ++ t).length) :
    (P ++ [e] ++ t).get ⟨P.length, h⟩ = e := by
  induction P with
  | nil => rfl
  | cons x P ih => simpa using ih (by simp)

theorem buildUrm_get (gen : Nat → Str) (rels : List Str) (i : Nat) (hi : i < rels.length)
    (h : i < (buildUrm gen 0 rels []).length) :
    (buildUrm gen 0 rels []).get ⟨i, h⟩ =
      (rels.get ⟨i, hi⟩,
        ⟨gen i, rels.get ⟨i, hi⟩,
          getAliasedTargetRelation (buildUrm gen 0 (rels.take i) []) (rels.get ⟨i, hi⟩)⟩) := by
  set P := buildUrm gen 0 (rels.take i) [] with hP
  set rel := rels.get ⟨i, hi⟩ with hrelDef
  have htake : (rels.take i).length = i := by
    simp [List.length_take, Nat.min_eq_left (Nat.le_of_lt hi)]
  have hPlen : P.length = i := by
    rw [hP, buildUrm_length]
    simpa using htake
  set e : Str × RelationBinding :=
    (rel, ⟨gen (0 + (rels.take i).length), rel, getAliasedTargetRelation P rel⟩) with heDef
  have hdecomp : rels = rels.take i ++ (rel :: rels.drop (i + 1)) := by
    conv_lhs => rw [← List.take_append_drop i rels]
    congr 1
    rw [List.drop_eq_getElem_cons hi]
    simp [hrelDef]
  have hurm : buildUrm gen 0 rels [] =
      buildUrm gen (0 + (rels.take i).length + 1) (rels.drop (i + 1)) (P ++ [e]) := by
    conv_lhs => rw [hdecomp]
    rw [buildUrm_append gen _ _ 0 []]
    rw [buildUrm]
  obtain ⟨t, ht⟩ := buildUrm_shape gen (rels.drop (i + 1)) (0 + (rels.take i).length + 1) (P ++ [e])
  rw [ht] at hurm
  have h2 : i < (P ++ [e] ++ t).length := by
    rw [← hurm]
    exact h
  rw [get_congr_list _ _ hurm i h h2]
  have hfin : (⟨i, h2⟩ : Fin (P ++ [e] ++ t).length) =
      ⟨P.length, by rw [hPlen]; exact h2⟩ :=
    Fin.ext (by simp [hPlen])
  rw [hfin, get_middle P e t]
  rw [heDef]
  simp [htake]

theorem getUniqueRelationMap_get (gen : Nat → Str) (f : List Str) (i : Nat)
    (hi : i < (getRelationMap f).length)
    (h : i < (getUniqueRelationMap gen f).length) :
    (getUniqueRelationMap gen f).get ⟨i, h⟩ =
      ((getRelationMap f).get ⟨i, hi⟩,
        ⟨gen i, (getRelationMap f).get ⟨i, hi⟩,
          getAliasedTargetRelation (buildUrm gen 0 ((getRelationMap f).take i) [])
            ((getRelationMap f).get ⟨i, hi⟩)⟩) := by
  have hb : i < (buildUrm gen 0 (getRelationMap f) []).length := by
    rw [← getUniqueRelationMap_eq_buildUrm]
    exact h
  rw [get_congr_list _ _ (getUniqueRelationMap_eq_buildUrm gen f) i h hb]
  exact buildUrm_get gen (getRelationMap f) i hi hb

theorem get_append_left_list {α : Type _} (l₁ l₂ : List α) (n : Nat) (hn : n < l₁.length)
    (h : n < (l₁ ++ l₂).length) : (l₁ ++ l₂).get ⟨n, h⟩ = l₁.get ⟨n, hn⟩ := by
  induction l₁ generalizing n with
  | nil => exact absurd hn (Nat.not_lt_zero n)
  | cons x l ih =>
    cases n with
    | zero => rfl
    | succ n => simpa using ih n (Nat.lt_of_succ_lt_succ hn) (by simpa using h)

theorem urm_prefix_decomp (gen : Nat → Str) (f : List Str) (i : Nat) :
    ∃ t, getUniqueRelationMap gen f =
      buildUrm gen 0 ((getRelationMap f).take i) [] ++ t := by
  have hstep : buildUrm gen 0 (getRelationMap f) [] =
      buildUrm gen (0 + ((getRelationMap f).take i).length) ((getRelationMap f).drop i)
        (buildUrm gen 0 ((getRelationMap f).take i) []) := by
    conv_lhs => rw [← List.take_append_drop i (getRelationMap f)]
    exact buildUrm_append gen _ _ 0 []
  rw [getUniqueRelationMap_eq_buildUrm, hstep]
  exact buildUrm_shape gen _ _ _

theorem prefix_len (gen : Nat → Str) (f : List Str) (i : Nat)
    (hi : i ≤ (getRelationMap f).length) :
    (buildUrm gen 0 ((getRelationMap f).take i) []).length = i := by
  rw [buildUrm_length]
  simp [List.length_take, Nat.min_eq_left hi]

theorem urm_get_mem_prefix (gen : Nat → Str) (f : List Str) {i j : Nat} (hj : j < i)
    (hi : i ≤ (getRelationMap f).length)
    (h : j < (getUniqueRelationMap gen f).length) :
    (getUniqueRelationMap gen f).get ⟨j, h⟩ ∈
      buildUrm gen 0 ((getRelationMap f).take i) [] := by
  obtain ⟨t, ht⟩ := urm_prefix_decomp gen f i
  have hPlen := prefix_len gen f i hi
  have hjP : j < (buildUrm gen 0 ((getRelationMap f).take i) []).length := by omega
  have h2 : j < ((buildUrm gen 0 ((getRelationMap f).take i) []) ++ t).length := by
    rw [← ht]
    exact h
  rw [get_congr_list _ _ ht j h h2, get_append_left_list _ _ j hjP h2]
  exact List.get_mem _ j hjP

theorem prefix_keys (gen : Nat → Str) (f : List Str) (i : Nat) :
    (buildUrm gen 0 ((getRelationMap f).take i) []).map Prod.fst =
      (getRelationMap f).take i := by
  simpa using buildUrm_keys gen ((getRelationMap f).take i) 0 []

theorem prefix_keys_nodup (gen : Nat → Str) (f : List Str) (i : Nat) :
    ((buildUrm gen 0 ((getRelationMap f).take i) []).map Prod.fst).Nodup := by
  rw [prefix_keys]
  exact List.Nodup.sublist (List.take_sublist i _) (getRelationMap_nodup f)

theorem prefix_key_mem (gen : Nat → Str) (f : List Str) (i : Nat)
    {kv : Str × RelationBinding}
    (hkv : kv ∈ buildUrm gen 0 ((getRelationMap f).take i) []) :
    kv.1 ∈ (getRelationMap f).take i := by
  have hmm : kv.1 ∈ (buildUrm gen 0 ((getRelationMap f).take i) []).map Prod.fst :=
    List.mem_map_of_mem Prod.fst hkv
  rw [prefix_keys] at hmm
  exact hmm

theorem replaceOnce_pre_alias {r ua : Str} (hd : hasDot r = true) :
    replaceOnce (beforeLastDot r) ua r = ua ++ '.' :: afterLastDot r := by
  have h3 := replaceOnce_append (beforeLastDot r) ua ('.' :: afterLastDot r)
  rw [← splitLastDot hd] at h3
  exact h3

/-! ### Concrete streams and field maps used by the witnesses -/

/-- An injective token stream (every token distinct). -/
def genW : Nat → Str := fun n => List.replicate (n + 1) 'z'

/-- A second injective token stream, distinct from `genW`. -/
def genInj : Nat → Str := fun n => List.replicate (n + 1) 'a'

/-- The field map of the repository's test suite. -/
def storeFieldMap : List Str :=
  [strL "store.name", strL "store.location.streetName",
    strL "store.id", strL "store.location.city"]

/-- **C7.** Alias resolution never fails: a dotted key whose parent does not
occur among the earlier keys keeps `aliasedTargetRelation` equal to the full
dotted key; resolution is a total function of the planning layer (the
embedding raises nothing), degrading instead of erroring. -/
theorem C7_fallback_unaliased (gen : Nat → Str) (f : List Str) (i : Nat)
    (h : i < (getUniqueRelationMap gen f).length)
    (hd : hasDot ((getUniqueRelationMap gen f).get ⟨i, h⟩).1 = true)
    (hmiss : ∀ (j : Nat) (hj : j < (getUniqueRelationMap gen f).length), j < i →
      ((getUniqueRelationMap gen f).get ⟨j, hj⟩).1 ≠
        beforeLastDot ((getUniqueRelationMap gen f).get ⟨i, h⟩).1) :
    ((getUniqueRelationMap gen f).get ⟨i, h⟩).2.aliasedTargetRelation =
      ((getUniqueRelationMap gen f).get ⟨i, h⟩).1 := by
  have hlen := getUniqueRelationMap_length gen f
  have hi' : i < (getRelationMap f).length := by omega
  have hgi := getUniqueRelationMap_get gen f i hi' h
  have hkey_i : ((getUniqueRelationMap gen f).get ⟨i, h⟩).1 =
      (getRelationMap f).get ⟨i, hi'⟩ := by rw [hgi]
  have hd' : hasDot ((getRelationMap f).get ⟨i, hi'⟩) = true := by
    rw [← hkey_i]
    exact hd
  rw [hgi]
  show getAliasedTargetRelation (buildUrm gen 0 ((getRelationMap f).take i) [])
      ((getRelationMap f).get ⟨i, hi'⟩) = (getRelationMap f).get ⟨i, hi'⟩
  refine gATR_missing hd' ?_
  intro kv hkv
  obtain ⟨⟨n, hn⟩, hget⟩ := List.mem_iff_get.1 hkv
  have hPlen := prefix_len gen f i (Nat.le_of_lt hi')
  have hni : n < i := by omega
  have hnu : n < (getUniqueRelationMap gen f).length := by omega
  have hsame : (getUniqueRelationMap gen f).get ⟨n, hnu⟩ = kv := by
    obtain ⟨t, ht⟩ := urm_prefix_decomp gen f i
    have h2 : n < ((buildUrm gen 0 ((getRelationMap f).take i) []) ++ t).length := by
      rw [← ht]
      exact hnu
    rw [get_congr_list _ _ ht n hnu h2, get_append_left_list _ _ n hn h2]
    exact hget
  have := hmiss n hnu hni
  rw [hsame, hkey_i] at this
  exact this

/-- Concrete instance of C7: for `["a.b.c"]` the only relation key is
`"a.b"`, its parent `"a"` is no key, and `aliasedTargetRelation` stays
`"a.b"`. -/
theorem C7_fallback_unaliased_witness :
    ((getUniqueRelationMap genW [strL "a.b.c"]).get ⟨0, by decide⟩).2.aliasedTargetRelation =
      ((getUniqueRelationMap genW [strL "a.b.c"]).get ⟨0, by decide⟩).1 :=
  C7_fallback_unaliased genW [strL "a.b.c"] 0 (by decide) (by decide)
    (fun j _ hlt => absurd hlt (Nat.not_lt_zero j))

theorem urm_aliased_of_parent_at (gen : Nat → Str) (f : List Str) (i j : Nat)
    (hi' : i < (getRelationMap f).length) (hj' : j < (getRelationMap f).length)
    (hj : j < i) (h : i < (getUniqueRelationMap gen f).length)
    (hji : j < (getUniqueRelationMap gen f).length)
    (hpre : (getRelationMap f).get ⟨j, hj'⟩ =
      beforeLastDot ((getRelationMap f).get ⟨i, hi'⟩))
    (hd : hasDot ((getRelationMap f).get ⟨i, hi'⟩) = true) :
    ((getUniqueRelationMap gen f).get ⟨i, h⟩).2.aliasedTargetRelation =
      ((getUniqueRelationMap gen f).get ⟨j, hji⟩).2.uniqueAlias ++
        '.' :: afterLastDot ((getRelationMap f).get ⟨i, hi'⟩) := by
  have hgi := getUniqueRelationMap_get gen f i hi' h
  have hgj := getUniqueRelationMap_get gen f j hj' hji
  have hmemP : ((getRelationMap f).get ⟨j, hj'⟩,
      (⟨gen j, (getRelationMap f).get ⟨j, hj'⟩,
        getAliasedTargetRelation (buildUrm gen 0 ((getRelationMap f).take j) [])
          ((getRelationMap f).get ⟨j, hj'⟩)⟩ : RelationBinding)) ∈
      buildUrm gen 0 ((getRelationMap f).take i) [] := by
    have := urm_get_mem_prefix gen f hj (Nat.le_of_lt hi') hji
    rw [hgj] at this
    exact this
  rw [hpre] at hmemP
  have hfound := @gATR_found (buildUrm gen 0 ((getRelationMap f).take i) []) _ _
    hd (prefix_keys_nodup gen f i) hmemP
  rw [hgi, hgj]
  exact hfound

theorem urm_aliased_self_of_no_parent (gen : Nat → Str) (f : List Str) (i : Nat)
    (hi' : i < (getRelationMap f).length) (h : i < (getUniqueRelationMap gen f).length)
    (hnp : hasDot ((getRelationMap f).get ⟨i, hi'⟩) = false ∨
      beforeLastDot ((getRelationMap f).get ⟨i, hi'⟩) ∉ (getRelationMap f).take i) :
    ((getUniqueRelationMap gen f).get ⟨i, h⟩).2.aliasedTargetRelation =
      ((getUniqueRelationMap gen f).get ⟨i, h⟩).2.targetRelation := by
  have hgi := getUniqueRelationMap_get gen f i hi' h
  rw [hgi]
  show getAliasedTargetRelation (buildUrm gen 0 ((getRelationMap f).take i) [])
      ((getRelationMap f).get ⟨i, hi'⟩) = (getRelationMap f).get ⟨i, hi'⟩
  rcases hnp with hnd | hnp
  · exact gATR_no_dot hnd
  · by_cases hdd : hasDot ((getRelationMap f).get ⟨i, hi'⟩) = true
    · refine gATR_missing hdd ?_
      intro kv hkv he
      exact hnp (he ▸ prefix_key_mem gen f i hkv)
    · exact gATR_no_dot (by revert hdd; cases hasDot ((getRelationMap f).get ⟨i, hi'⟩) <;> simp)

/-- **C4.** In every map `getUniqueRelationMap` returns, each binding's
`targetRelation` equals its key; whenever a dotted key's parent (the key minus
its final segment) occurs as an earlier key, that binding's
`aliasedTargetRelation` equals the key with the parent prefix replaced by the
parent's `uniqueAlias` — hence beginning with that alias followed by a dot —
and on the test's field map the map has exactly 2 entries. -/
theorem C4_binding_integrity (gen : Nat → Str) (f : List Str) :
    (∀ kv ∈ getUniqueRelationMap gen f, kv.2.targetRelation = kv.1) ∧
      (∀ (i j : Nat) (h : i < (getUniqueRelationMap gen f).length)
          (hji : j < (getUniqueRelationMap gen f).length), j < i →
        hasDot ((getUniqueRelationMap gen f).get ⟨i, h⟩).1 = true →
        ((getUniqueRelationMap gen f).get ⟨j, hji⟩).1 =
            beforeLastDot ((getUniqueRelationMap gen f).get ⟨i, h⟩).1 →
        ((getUniqueRelationMap gen f).get ⟨i, h⟩).2.aliasedTargetRelation =
            replaceOnce (beforeLastDot ((getUniqueRelationMap gen f).get ⟨i, h⟩).1)
              ((getUniqueRelationMap gen f).get ⟨j, hji⟩).2.uniqueAlias
              ((getUniqueRelationMap gen f).get ⟨i, h⟩).1 ∧
          leadsWith (((getUniqueRelationMap gen f).get ⟨j, hji⟩).2.uniqueAlias ++ ['.'])
            ((getUniqueRelationMap gen f).get ⟨i, h⟩).2.aliasedTargetRelation = true) ∧
      (getUniqueRelationMap gen storeFieldMap).length = 2 := by
  have hlen := getUniqueRelationMap_length gen f
  refine ⟨?_, ?_, ?_⟩
  · intro kv hkv
    obtain ⟨⟨n, hn⟩, hget⟩ := List.mem_iff_get.1 hkv
    have hn' : n < (getRelationMap f).length := by omega
    rw [getUniqueRelationMap_get gen f n hn' hn] at hget
    rw [← hget]
  · intro i j h hji hj hd hpar
    have hi' : i < (getRelationMap f).length := by omega
    have hj' : j < (getRelationMap f).length := by omega
    have hkey_i : ((getUniqueRelationMap gen f).get ⟨i, h⟩).1 =
        (getRelationMap f).get ⟨i, hi'⟩ := by
      rw [getUniqueRelationMap_get gen f i hi' h]
    have hd' : hasDot ((getRelationMap f).get ⟨i, hi'⟩) = true := by
      rw [← hkey_i]
      exact hd
    have hpre : (getRelationMap f).get ⟨j, hj'⟩ =
        beforeLastDot ((getRelationMap f).get ⟨i, hi'⟩) := by
      rw [← hkey_i, ← hpar, getUniqueRelationMap_get gen f j hj' hji]
    have hali := urm_aliased_of_parent_at gen f i j hi' hj' hj h hji hpre hd'
    constructor
    · rw [hali, hkey_i, replaceOnce_pre_alias hd']
    · rw [hali]
      have hsp : ((getUniqueRelationMap gen f).get ⟨j, hji⟩).2.uniqueAlias ++
          '.' :: afterLastDot ((getRelationMap f).get ⟨i, hi'⟩) =
          (((getUniqueRelationMap gen f).get ⟨j, hji⟩).2.uniqueAlias ++ ['.']) ++
            afterLastDot ((getRelationMap f).get ⟨i, hi'⟩) := by
        simp
      rw [hsp]
      exact leadsWith_append _ _
  · rw [getUniqueRelationMap_length]
    decide

/-- Concrete instance of C4: with an explicit stream and the test's field map,
the second binding (`store.location`) chains through the first (`store`). -/
theorem C4_binding_integrity_witness :
    ((getUniqueRelationMap genW storeFieldMap).get ⟨1, by decide⟩).2.aliasedTargetRelation =
        replaceOnce
          (beforeLastDot ((getUniqueRelationMap genW storeFieldMap).get ⟨1, by decide⟩).1)
          ((getUniqueRelationMap genW storeFieldMap).get ⟨0, by decide⟩).2.uniqueAlias
          ((getUniqueRelationMap genW storeFieldMap).get ⟨1, by decide⟩).1 ∧
      leadsWith
        (((getUniqueRelationMap genW storeFieldMap).get ⟨0, by decide⟩).2.uniqueAlias ++ ['.'])
        ((getUniqueRelationMap genW storeFieldMap).get ⟨1, by decide⟩).2.aliasedTargetRelation =
          true :=
  (C4_binding_integrity genW storeFieldMap).2.1 1 0 (by decide) (by decide) (by decide)
    (by decide) (by decide)

/-- **C9.** Two runs over the same input, under any two token streams, produce
maps with identical key lists, identical `targetRelation` values position by
position, and structurally identical alias-chaining: at every position either
both runs keep `aliasedTargetRelation = targetRelation`, or both replace the
same parent prefix (an earlier key) by their own run's alias for that parent. -/
theorem C9_structural_idempotence (g1 g2 : Nat → Str) (f : List Str) :
    (getUniqueRelationMap g1 f).map Prod.fst = (getUniqueRelationMap g2 f).map Prod.fst ∧
      (∀ (i : Nat) (h1 : i < (getUniqueRelationMap g1 f).length)
          (h2 : i < (getUniqueRelationMap g2 f).length),
        ((getUniqueRelationMap g1 f).get ⟨i, h1⟩).2.targetRelation =
          ((getUniqueRelationMap g2 f).get ⟨i, h2⟩).2.targetRelation) ∧
      ∀ (i : Nat) (h1 : i < (getUniqueRelationMap g1 f).length)
          (h2 : i < (getUniqueRelationMap g2 f).length),
        (((getUniqueRelationMap g1 f).get ⟨i, h1⟩).2.aliasedTargetRelation =
            ((getUniqueRelationMap g1 f).get ⟨i, h1⟩).2.targetRelation ∧
          ((getUniqueRelationMap g2 f).get ⟨i, h2⟩).2.aliasedTargetRelation =
            ((getUniqueRelationMap g2 f).get ⟨i, h2⟩).2.targetRelation) ∨
        ∃ j, j < i ∧ ∃ (hj1 : j < (getUniqueRelationMap g1 f).length)
            (hj2 : j < (getUniqueRelationMap g2 f).length),
          ((getUniqueRelationMap g1 f).get ⟨j, hj1⟩).1 =
              beforeLastDot ((getUniqueRelationMap g1 f).get ⟨i, h1⟩).1 ∧
            ((getUniqueRelationMap g1 f).get ⟨i, h1⟩).2.aliasedTargetRelation =
              ((getUniqueRelationMap g1 f).get ⟨j, hj1⟩).2.uniqueAlias ++
                '.' :: afterLastDot ((getUniqueRelationMap g1 f).get ⟨i, h1⟩).1 ∧
            ((getUniqueRelationMap g2 f).get ⟨i, h2⟩).2.aliasedTargetRelation =
              ((getUniqueRelationMap g2 f).get ⟨j, hj2⟩).2.uniqueAlias ++
                '.' :: afterLastDot ((getUniqueRelationMap g2 f).get ⟨i, h2⟩).1 := by
  have hlen1 := getUniqueRelationMap_length g1 f
  have hlen2 := getUniqueRelationMap_length g2 f
  refine ⟨?_, ?_, ?_⟩
  · rw [getUniqueRelationMap_keys, getUniqueRelationMap_keys]
  · intro i h1 h2
    have hi' : i < (getRelationMap f).length := by omega
    rw [getUniqueRelationMap_get g1 f i hi' h1, getUniqueRelationMap_get g2 f i hi' h2]
  · intro i h1 h2
    have hi' : i < (getRelationMap f).length := by omega
    have hkey1 : ((getUniqueRelationMap g1 f).get ⟨i, h1⟩).1 =
        (getRelationMap f).get ⟨i, hi'⟩ := by
      rw [getUniqueRelationMap_get g1 f i hi' h1]
    have hkey2 : ((getUniqueRelationMap g2 f).get ⟨i, h2⟩).1 =
        (getRelationMap f).get ⟨i, hi'⟩ := by
      rw [getUniqueRelationMap_get g2 f i hi' h2]
    by_cases hd : hasDot ((getRelationMap f).get ⟨i, hi'⟩) = true
    · by_cases hp : beforeLastDot ((getRelationMap f).get ⟨i, hi'⟩) ∈
          (getRelationMap f).take i
      · right
        obtain ⟨⟨j, hjt⟩, hjget⟩ := List.mem_iff_get.1 hp
        have hjlen : j < i := by
          have h0 := hjt
          simp only [List.length_take] at h0
          omega
        have hj' : j < (getRelationMap f).length := by omega
        have hjrel : (getRelationMap f).get ⟨j, hj'⟩ =
            beforeLastDot ((getRelationMap f).get ⟨i, hi'⟩) := by
          rw [← hjget]
          rw [List.get_eq_getElem, List.get_eq_getElem, List.getElem_take]
        have hj1 : j < (getUniqueRelationMap g1 f).length := by omega
        have hj2 : j < (getUniqueRelationMap g2 f).length := by omega
        refine ⟨j, hjlen, hj1, hj2, ?_, ?_, ?_⟩
        · rw [getUniqueRelationMap_get g1 f j hj' hj1, hkey1]
          exact hjrel
        · rw [hkey1]
          exact urm_aliased_of_parent_at g1 f i j hi' hj' hjlen h1 hj1 hjrel hd
        · rw [hkey2]
          exact urm_aliased_of_parent_at g2 f i j hi' hj' hjlen h2 hj2 hjrel hd
      · left
        exact ⟨urm_aliased_self_of_no_parent g1 f i hi' h1 (Or.inr hp),
          urm_aliased_self_of_no_parent g2 f i hi' h2 (Or.inr hp)⟩
    · left
      have hdf : hasDot ((getRelationMap f).get ⟨i, hi'⟩) = false := by
        revert hd
        cases hasDot ((getRelationMap f).get ⟨i, hi'⟩) <;> simp
      exact ⟨urm_aliased_self_of_no_parent g1 f i hi' h1 (Or.inl hdf),
        urm_aliased_self_of_no_parent g2 f i hi' h2 (Or.inl hdf)⟩

/-- Concrete instance of C9: the two runs agree on the first binding's
`targetRelation` for two different streams. -/
theorem C9_structural_idempotence_witness :
    ((getUniqueRelationMap genW storeFieldMap).get ⟨0, by decide⟩).2.targetRelation =
      ((getUniqueRelationMap genInj storeFieldMap).get ⟨0, by decide⟩).2.targetRelation :=
  (C9_structural_idempotence genW genInj storeFieldMap).2.1 0 (by decide) (by decide)

/-! ### Alias distinctness -/

theorem uniqueAliases_eq_stream (gen : Nat → Str) (f : List Str) :
    (getUniqueRelationMap gen f).map (fun kv => kv.2.uniqueAlias) =
      (List.range' 0 (getRelationMap f).length).map gen := by
  rw [getUniqueRelationMap_eq_buildUrm]
  simpa using buildUrm_aliases gen (getRelationMap f) 0 []

/-- **C1 counterexample.** The claim quantifies over every output stream of
the alias generator; under the constant stream the two relations of
`["a.x", "b.y"]` receive the same `uniqueAlias` in one run. -/
theorem C1_counterexample_constant_stream :
    ¬ ((getUniqueRelationMap (fun _ => strL "z") [strL "a.x", strL "b.y"]).map
        (fun kv => kv.2.uniqueAlias)).Nodup := by
  decide

/-- **C1 (amended).** The `uniqueAlias` values of one compilation run are the
successive tokens of the generator stream; they are pairwise distinct for
every stream that never repeats a token (the code itself enforces nothing
when the stream repeats one). -/
theorem C1_uniqueAliases_nodup_of_injective (gen : Nat → Str) (f : List Str)
    (hinj : Function.Injective gen) :
    ((getUniqueRelationMap gen f).map (fun kv => kv.2.uniqueAlias)).Nodup := by
  rw [uniqueAliases_eq_stream]
  exact List.Nodup.map hinj (List.nodup_range' 0 (getRelationMap f).length)

/-- Concrete instance of C1 (amended): an injective stream on the test's field
map yields pairwise distinct aliases. -/
theorem C1_uniqueAliases_nodup_witness :
    Function.Injective genW ∧
      ((getUniqueRelationMap genW storeFieldMap).map
        (fun kv => kv.2.uniqueAlias)).Nodup :=
  ⟨fun a b h => by simpa [genW] using congrArg List.length h,
    C1_uniqueAliases_nodup_of_injective genW storeFieldMap
      (fun a b h => by simpa [genW] using congrArg List.length h)⟩

/-! ### The projection and join plans -/

/-- The projection entry C2 describes for one path: the last key of the map
(in insertion order) that occurs inside the original path is substituted —
first occurrence, computed from the original path — by its `uniqueAlias`;
with no matching key the path stays unchanged.  (Stated from the claim's
words, to be compared with the code's fold.) -/
def lastMatchRewrite (urm : Urm) (field : Str) : Str :=
  match (urm.filter (fun kv => strHas kv.1 field)).getLast? with
  | none => field
  | some kv => replaceOnce kv.1 kv.2.uniqueAlias field

theorem selection_foldl_last (field : Str) : ∀ (urm : Urm) (start : Str),
    urm.foldl (fun uf kv =>
      if strHas kv.1 field then replaceOnce kv.1 kv.2.uniqueAlias field else uf) start =
    (match (urm.filter (fun kv => strHas kv.1 field)).getLast? with
      | none => start
      | some kv => replaceOnce kv.1 kv.2.uniqueAlias field) := by
  intro urm
  induction urm with
  | nil => intro start; rfl
  | cons kv rest ih =>
    intro start
    by_cases h : strHas kv.1 field = true
    · have hfc : (kv :: rest).filter (fun kv => strHas kv.1 field) =
          kv :: rest.filter (fun kv => strHas kv.1 field) := by
        simp [List.filter_cons, h]
      rw [List.foldl_cons, if_pos h, ih, hfc]
      cases hlast : (rest.filter (fun kv => strHas kv.1 field)).getLast? with
      | none =>
        have hnil : rest.filter (fun kv => strHas kv.1 field) = [] :=
          List.getLast?_eq_none_iff.1 hlast
        rw [hnil]
        rfl
      | some kv' =>
        rw [List.getLast?_cons, hlast]
        rfl
    · have hfc : (kv :: rest).filter (fun kv => strHas kv.1 field) =
          rest.filter (fun kv => strHas kv.1 field) := by
        simp [List.filter_cons, h]
      rw [List.foldl_cons, if_neg h, ih, hfc]

/-- **C2.** The list handed to `query.select` has exactly one entry per input
path, in input order (its length is the input length); each entry is the
original path with the last map key (in insertion order) occurring in it
replaced — computed from the original path, not cumulatively — by that key's
`uniqueAlias`, and an entry left without a dot is prefixed with the root
alias followed by a dot. -/
theorem C2_projection_list (fieldMap : List Str) (urm : Urm) (q : QueryState) :
    (assignSelectionToQuery fieldMap urm q).selects =
        q.selects ++ [fieldMap.map (fun field =>
          if hasDot (lastMatchRewrite urm field) = false then
            q.rootAlias ++ '.' :: lastMatchRewrite urm field
          else lastMatchRewrite urm field)] ∧
      (fieldMap.map (fun field =>
          if hasDot (lastMatchRewrite urm field) = false then
            q.rootAlias ++ '.' :: lastMatchRewrite urm field
          else lastMatchRewrite urm field)).length = fieldMap.length := by
  have hmap : fieldMap.map (fun field =>
      let uf := urm.foldl (fun uf kv =>
        if strHas kv.1 field then replaceOnce kv.1 kv.2.uniqueAlias field else uf) field
      if hasDot uf = false then q.rootAlias ++ '.' :: uf else uf) =
      fieldMap.map (fun field =>
        if hasDot (lastMatchRewrite urm field) = false then
          q.rootAlias ++ '.' :: lastMatchRewrite urm field
        else lastMatchRewrite urm field) := by
    refine List.map_congr_left ?_
    intro field _
    have hf := selection_foldl_last field urm field
    simp only [hf, lastMatchRewrite]
  constructor
  · rw [assignSelectionToQuery]
    rw [hmap]
    rfl
  · exact List.length_map _ _

theorem joinRelations_spec : ∀ (urm : Urm) (q : QueryState),
    joinRelationsToQuery urm q =
      { q with joins := q.joins ++ urm.map (fun kv =>
          if hasDot kv.1 = false then
            (q.rootAlias ++ kv.2.targetRelation, kv.2.uniqueAlias)
          else (kv.2.aliasedTargetRelation, kv.2.uniqueAlias)) } := by
  intro urm
  induction urm with
  | nil => intro q; simp [joinRelationsToQuery]
  | cons kv rest ih =>
    intro q
    have h1 : joinRelationsToQuery (kv :: rest) q =
        joinRelationsToQuery rest
          (if hasDot kv.1 = false then
            leftJoinAndSelect q (q.rootAlias ++ kv.2.targetRelation) kv.2.uniqueAlias
          else leftJoinAndSelect q kv.2.aliasedTargetRelation kv.2.uniqueAlias) := rfl
    rw [h1]
    by_cases hd : hasDot kv.1 = false
    · rw [if_pos hd, ih]
      simp [leftJoinAndSelect, hd]
    · rw [if_neg hd, ih]
      simp [leftJoinAndSelect, hd]

/-- **C5.** `joinRelationsToQuery` issues exactly one `leftJoinAndSelect` per
binding, in map order: a dot-free key joins the plain concatenation of the
root alias and `targetRelation` under the binding's `uniqueAlias`; a dotted
key joins its `aliasedTargetRelation` under its `uniqueAlias`. -/
theorem C5_joins_per_binding (urm : Urm) (q : QueryState) :
    (joinRelationsToQuery urm q).joins =
        q.joins ++ urm.map (fun kv =>
          if hasDot kv.1 = false then
            (q.rootAlias ++ kv.2.targetRelation, kv.2.uniqueAlias)
          else (kv.2.aliasedTargetRelation, kv.2.uniqueAlias)) ∧
      (joinRelationsToQuery urm q).joins.length = q.joins.length + urm.length := by
  rw [joinRelations_spec]
  simp

/-- **C8.** On the empty field map `mapGraph` is total and degenerate: it
returns the empty relation map, issues no `leftJoinAndSelect` call, and calls
`select` exactly once, with the empty projection list. -/
theorem C8_mapGraph_empty (gen : Nat → Str) (q : QueryState) :
    (mapGraph gen [] q).1 = [] ∧ (mapGraph gen [] q).2.joins = q.joins ∧
      (mapGraph gen [] q).2.selects = q.selects ++ [[]] :=
  ⟨rfl, rfl, rfl⟩

/-! ### Frame property: the caller's array object is never written -/

/-- A store of JS array objects in allocation order, enough to say which
array object each statement of the mapper writes to; slots are `Option Str`
so `delete` holes are representable, and the caller's array is an all-`some`
cell. -/
abbrev Heap := List (List (Option Str))

/-- `sanitizeFieldMap` acting on the store.  `let map = [...fieldMap]`
allocates a fresh object (at `h.length`) holding a copy of the caller's cell;
every `delete map[key]` of the nested loops writes to that fresh object only
(their combined effect is the single functional update with the loops'
result), and `map.filter(field => field != null)` allocates the result
object.  Returns the final store and the result reference. -/
def sanitizeFieldMapHeap (h : Heap) (fieldMapRef : Nat) : Heap × Nat :=
  let mapRef := h.length
  let h1 := h ++ [h.getD fieldMapRef []]
  let h2 := h1.set mapRef (sanitizeScan [] (h1.getD mapRef []))
  let resRef := h2.length
  let h3 := h2 ++ [((h2.getD mapRef []).filterMap id).map some]
  (h3, resRef)

/-- `mapGraph` acting on the store: the only array-object mutation of the
pipeline happens inside `sanitizeFieldMap`; the later stages only read the
sanitized copy and thread the query state. -/
def mapGraphHeap (gen : Nat → Str) (h : Heap) (fieldMapRef : Nat) (q : QueryState) :
    Heap × Urm × QueryState :=
  let res := sanitizeFieldMapHeap h fieldMapRef
  let effectiveFieldMap := (res.1.getD res.2 []).filterMap id
  let urm := getUniqueRelationMap gen effectiveFieldMap
  let q1 := joinRelationsToQuery urm q
  let q2 := assignSelectionToQuery effectiveFieldMap urm q1
  (res.1, urm, q2)

theorem set_append_singleton {α : Type _} (h : List α) (x v : α) :
    (h ++ [x]).set h.length v = h ++ [v] := by
  induction h with
  | nil => rfl
  | cons a h ih =>
    show a :: (h ++ [x]).set h.length v = a :: (h ++ [v])
    rw [ih]

theorem getD_append_len {α : Type _} (h : List α) (x d : α) :
    (h ++ [x]).getD h.length d = x := by
  induction h with
  | nil => rfl
  | cons a h ih =>
    show (h ++ [x]).getD h.length d = x
    exact ih

/-- **C10.** `sanitizeFieldMap` (and hence `mapGraph`) leaves the caller's
array object unchanged: all stores target the fresh copy made by the spread,
so every pre-existing cell of the store — the `fieldMap` argument's included —
is the same after the call, and the result object holds exactly
`sanitizeFieldMap` of the caller's contents. -/
theorem C10_caller_array_unmodified (h : Heap) (fieldMapRef : Nat)
    (caller : List Str) (gen : Nat → Str) (q : QueryState) :
    (sanitizeFieldMapHeap h fieldMapRef).1.take h.length = h ∧
      (mapGraphHeap gen h fieldMapRef q).1.take h.length = h ∧
      (h.getD fieldMapRef [] = caller.map some →
        (sanitizeFieldMapHeap h fieldMapRef).1.getD (sanitizeFieldMapHeap h fieldMapRef).2 [] =
          (sanitizeFieldMap caller).map some) := by
  have hset : (h ++ [h.getD fieldMapRef []]).set h.length
      (sanitizeScan [] ((h ++ [h.getD fieldMapRef []]).getD h.length [])) =
      h ++ [sanitizeScan [] (h.getD fieldMapRef [])] := by
    rw [getD_append_len, set_append_singleton]
  have hheap : (sanitizeFieldMapHeap h fieldMapRef).1 =
      h ++ [sanitizeScan [] (h.getD fieldMapRef [])] ++
        [(((h ++ [sanitizeScan [] (h.getD fieldMapRef [])]).getD h.length []).filterMap id).map
          some] := by
    show ((h ++ [h.getD fieldMapRef []]).set h.length
        (sanitizeScan [] ((h ++ [h.getD fieldMapRef []]).getD h.length []))) ++ _ = _
    rw [hset]
  have htake : (sanitizeFieldMapHeap h fieldMapRef).1.take h.length = h := by
    rw [hheap, List.append_assoc]
    exact List.take_left h _
  refine ⟨htake, htake, ?_⟩
  intro hcaller
  have href : (sanitizeFieldMapHeap h fieldMapRef).2 =
      (h ++ [h.getD fieldMapRef []]).length := by
    show ((h ++ [h.getD fieldMapRef []]).set h.length _).length = _
    rw [List.length_set]
  have hlen2 : (sanitizeFieldMapHeap h fieldMapRef).2 =
      (h ++ [sanitizeScan [] (h.getD fieldMapRef [])]).length := by
    rw [href]
    simp
  rw [hheap, hlen2, getD_append_len, getD_append_len, hcaller]
  rfl
